import Mathlib

/-!
Verification of the time-series cache subsystem of the stock_quantization
repository: the daily-bar range cache (`SmartCacheManager` in
`src/data_provider/data_manager.py`) and the intraday per-day tick cache
(`IntradayCacheManager` in `src/data_provider/intraday_cache.py` together
with `MairuiDataProvider.get_intraday_trades` in
`src/data_provider/mairui_provider.py`).

Modelling conventions:
- Calendar dates are integers (day numbers), so `date + 1` is "one day later",
  matching `timedelta(days=1)` arithmetic in the source.
- A daily bar's OHLCV payload is abstracted into a single integer `val`;
  none of the cache logic inspects individual columns.
- Wall-clock instants for the intraday cache are `(day, hour)` pairs, the
  granularity at which the source compares times (`now.hour`, `.days`).
- A pandas DataFrame that may be absent is `Option (List _)`; `none` is
  Python `None`, `some []` is an empty frame.
- `pd.DataFrame.loc[a:b]` on a date-sorted frame is the filter
  `a ≤ date ≤ b`; on an inverted slice it yields the empty frame, which the
  filter reproduces.
- The fetch callable is passed in as `fetcher : Int → Int → Option (List Bar)`;
  the run result records the exact argument pairs it was invoked with.
- The Python expression `cached_data.loc[...]` evaluated while `cached_data`
  is `None` (or while the frame is empty, making `index.min()` NaN) raises;
  this is modelled by an `Except Unit` result, `.error ()` being the raise.
-/

/-- One daily OHLCV bar: its calendar date and an abstract payload value. -/
structure Bar where
  date : Int
  val : Int
deriving DecidableEq, Repr

/-- Ordering of bars by date, used for `sort_index()` on the bar series. -/
def dateLe (a b : Bar) : Prop := a.date ≤ b.date

instance : DecidableRel dateLe := fun a b => inferInstanceAs (Decidable (a.date ≤ b.date))

instance : IsTotal Bar dateLe := ⟨fun a b => le_total a.date b.date⟩

instance : IsTrans Bar dateLe := ⟨fun _ _ _ h1 h2 => le_trans h1 h2⟩

/-- `DataFrame.index.min()` of a bar series (0 on the empty frame, unused there). -/
def minDate : List Bar → Int
  | [] => 0
  | b :: rest => rest.foldl (fun a c => min a c.date) b.date

/-- `DataFrame.index.max()` of a bar series (0 on the empty frame, unused there). -/
def maxDate : List Bar → Int
  | [] => 0
  | b :: rest => rest.foldl (fun a c => max a c.date) b.date

/-- `df.loc[a:b]` on a date-indexed frame: the bars with date in `[a, b]`. -/
def sliceLoc (bars : List Bar) (a b : Int) : List Bar :=
  bars.filter (fun x => decide (a ≤ x.date) && decide (x.date ≤ b))

namespace SmartCacheManager

/-- The per-symbol entry of `cache_metadata.json`: `last_update` (in days),
`data_range.start`, `data_range.end` and `record_count`. -/
structure RangeMeta where
  lastUpdate : Int
  rangeStart : Int
  rangeEnd : Int
  recordCount : Nat
deriving DecidableEq, Repr

/-- Persisted state for one symbol: the CSV series file and the metadata entry. -/
structure CacheState where
  seriesFile : Option (List Bar)
  metadata : Option RangeMeta
deriving DecidableEq, Repr

/-- `SmartCacheManager.cache_expire_days`. -/
def cacheExpireDays : Int := 7

/-- `_is_cache_valid`: the symbol has metadata whose `last_update` is at most
`cache_expire_days` days old. -/
def isCacheValid (now : Int) (s : CacheState) : Bool :=
  match s.metadata with
  | none => false
  | some m => decide (now - m.lastUpdate ≤ cacheExpireDays)

/-- `_get_cached_data`: the series file, provided the cache is valid and the
file exists. -/
def getCachedData (now : Int) (s : CacheState) : Option (List Bar) :=
  if isCacheValid now s then s.seriesFile else none

/-- Removes duplicate dates keeping the last occurrence, as
`combined_data[~combined_data.index.duplicated(keep='last')]` does. -/
def dedupKeepLast : List Bar → List Bar
  | [] => []
  | b :: rest =>
    if rest.any (fun c => decide (c.date = b.date)) then dedupKeepLast rest
    else b :: dedupKeepLast rest

/-- `sort_index()`: sort the bar series ascending by date. -/
def sortBars (l : List Bar) : List Bar := List.insertionSort dateLe l

/-- `_merge_data_ranges`: concatenate, deduplicate keeping the last
occurrence per date, sort ascending by date; degenerate inputs short-circuit. -/
def mergeDataRanges (existing newData : Option (List Bar)) : List Bar :=
  match existing with
  | none => newData.getD []
  | some e =>
    if e.isEmpty then newData.getD []
    else
      match newData with
      | none => e
      | some n => if n.isEmpty then e else sortBars (dedupKeepLast (e ++ n))

/-- `_get_missing_date_ranges`: the at-most-two gaps not covered by the
cached series, or the whole request when nothing is cached. -/
def getMissingDateRanges (now : Int) (s : CacheState) (startD endD : Int) :
    List (Int × Int) :=
  match getCachedData now s with
  | none => [(startD, endD)]
  | some bars =>
    if bars.isEmpty then [(startD, endD)]
    else
      (if startD < minDate bars then [(startD, minDate bars - 1)] else []) ++
      (if endD > maxDate bars then [(maxDate bars + 1, endD)] else [])

/-- `_save_data_to_cache`: write the series file, then the metadata entry
derived from the written series. -/
def saveDataToCache (now : Int) (data : List Bar) : CacheState :=
  ⟨some data, some ⟨now, minDate data, maxDate data, data.length⟩⟩

/-- The full-coverage test on lines 168-173 of `data_manager.py`:
a valid, non-empty cache whose range contains the request. -/
def coveredCheck (now : Int) (s : CacheState) (startD endD : Int) : Bool :=
  match getCachedData now s with
  | none => false
  | some bars =>
    !bars.isEmpty && decide (minDate bars ≤ startD) && decide (endD ≤ maxDate bars)

/-- The non-empty fetch results collected by the loop on lines 190-195. -/
def collectNewData (fetcher : Int → Int → Option (List Bar))
    (ranges : List (Int × Int)) : List (List Bar) :=
  ranges.filterMap (fun p =>
    match fetcher p.1 p.2 with
    | none => none
    | some l => if l.isEmpty then none else some l)

/-- Outcome of one `get_data_with_cache` call: the returned frame (or a raised
exception), the persisted state afterwards, and the arguments the fetch
callable was invoked with, in order. -/
structure RunResult where
  result : Except Unit (List Bar)
  newState : CacheState
  fetchCalls : List (Int × Int)
deriving Repr

/-- `get_data_with_cache` (lines 149-215 of `data_manager.py`). -/
def getDataWithCache (now : Int) (s : CacheState) (startD endD : Int)
    (fetcher : Int → Int → Option (List Bar)) : RunResult :=
  let cached := getCachedData now s
  if coveredCheck now s startD endD then
    ⟨.ok (sliceLoc (cached.getD []) startD endD), s, []⟩
  else
    let missing := getMissingDateRanges now s startD endD
    if missing.isEmpty then
      match cached with
      | some bars =>
        if bars.isEmpty then ⟨.ok [], s, missing⟩
        else ⟨.ok (sliceLoc bars startD endD), s, missing⟩
      | none => ⟨.ok [], s, missing⟩
    else
      let parts := collectNewData fetcher missing
      if parts.isEmpty then
        match cached with
        | some bars =>
          if bars.isEmpty then ⟨.error (), s, missing⟩
          else
            ⟨.ok (bars.filter (fun x =>
                decide (max (minDate bars) startD ≤ x.date) &&
                decide (x.date ≤ min (maxDate bars) endD))), s, missing⟩
        | none => ⟨.error (), s, missing⟩
      else
        let updated := mergeDataRanges cached (some parts.flatten)
        ⟨.ok (sliceLoc updated startD endD), saveDataToCache now updated, missing⟩

end SmartCacheManager

/-- One intraday trade print: its timestamp within the day and an abstract
payload value (price/volume/amount are never inspected by the cache logic). -/
structure Tick where
  ts : Int
  val : Int
deriving DecidableEq, Repr

/-- Ascending ordering of ticks by timestamp (`sort_index(ascending=True)`). -/
def tickAsc (a b : Tick) : Prop := a.ts ≤ b.ts

/-- Descending ordering of ticks by timestamp (`sort_index(ascending=False)`). -/
def tickDesc (a b : Tick) : Prop := b.ts ≤ a.ts

instance : DecidableRel tickAsc := fun a b => inferInstanceAs (Decidable (a.ts ≤ b.ts))

instance : DecidableRel tickDesc := fun a b => inferInstanceAs (Decidable (b.ts ≤ a.ts))

instance : IsTotal Tick tickAsc := ⟨fun a b => le_total a.ts b.ts⟩

instance : IsTrans Tick tickAsc := ⟨fun _ _ _ h1 h2 => le_trans h1 h2⟩

instance : IsTotal Tick tickDesc := ⟨fun a b => le_total b.ts a.ts⟩

instance : IsTrans Tick tickDesc := ⟨fun _ _ _ h1 h2 => le_trans h2 h1⟩

/-- A wall-clock instant at the granularity the source compares times:
a calendar day number and an hour of day. -/
structure DT where
  day : Int
  hour : Int
deriving DecidableEq, Repr

/-- Association-list lookup by day key (file-per-day / metadata-key-per-day). -/
def lookupAssoc {β : Type} (k : Int) : List (Int × β) → Option β
  | [] => none
  | (k', v) :: rest => if k' = k then some v else lookupAssoc k rest

/-- Association-list update: replace the entry for `k`, or append it. -/
def insertAssoc {β : Type} (k : Int) (v : β) : List (Int × β) → List (Int × β)
  | [] => [(k, v)]
  | (k', v') :: rest =>
    if k' = k then (k, v) :: rest else (k', v') :: insertAssoc k v rest

namespace IntradayCacheManager

/-- The per-(symbol, day) entry of `intraday_metadata.json`; only
`last_update` is ever read back, plus the record count. -/
structure DayMeta where
  lastUpdateDay : Int
  lastUpdateHour : Int
  recordCount : Nat
deriving DecidableEq, Repr

/-- Persisted state for one symbol: the parquet file per day and the metadata
entry per day. -/
structure IntradayState where
  files : List (Int × List Tick)
  metadata : List (Int × DayMeta)
deriving DecidableEq, Repr

/-- `IntradayCacheManager.data_update_hour`: the 21:00 daily cutover. -/
def dataUpdateHour : Int := 21

/-- `_is_data_updated_today`: for today's date, whether 21:00 has passed;
historical dates are always considered updated. -/
def isDataUpdatedToday (now : DT) (tradeDate : Int) : Bool :=
  if tradeDate = now.day then decide (now.hour ≥ dataUpdateHour) else true

/-- `(now - last_update).days`: floor of the hour difference divided by 24. -/
def timeDeltaDays (a b : DT) : Int :=
  ((a.day * 24 + a.hour) - (b.day * 24 + b.hour)).fdiv 24

/-- `_is_cache_valid` (lines 75-106 of `intraday_cache.py`), with the
configurable `intraday_cache_expire_days` (default -1, never expire) as a
parameter. -/
def isCacheValid (expireDays : Int) (now : DT) (st : IntradayState)
    (tradeDate : Int) : Bool :=
  match lookupAssoc tradeDate st.metadata with
  | none => false
  | some info =>
    match lookupAssoc tradeDate st.files with
    | none => false
    | some _ =>
      if tradeDate = now.day then
        if !isDataUpdatedToday now tradeDate then true
        else decide (info.lastUpdateHour ≥ dataUpdateHour)
      else
        if expireDays ≥ 0 then
          decide (timeDeltaDays now ⟨info.lastUpdateDay, info.lastUpdateHour⟩ ≤ expireDays)
        else true

/-- Sort a tick series descending by timestamp. -/
def sortTicksDesc (l : List Tick) : List Tick := List.insertionSort tickDesc l

/-- Sort a tick series ascending by timestamp. -/
def sortTicksAsc (l : List Tick) : List Tick := List.insertionSort tickAsc l

/-- `get_intraday_data` (lines 152-188): `None` when the cache is invalid or
the file is missing, otherwise the stored ticks sorted newest-first
(`data.sort_index(ascending=False)`). -/
def getIntradayData (expireDays : Int) (now : DT) (st : IntradayState)
    (tradeDate : Int) : Option (List Tick) :=
  if isCacheValid expireDays now st tradeDate then
    match lookupAssoc tradeDate st.files with
    | none => none
    | some ticks => some (sortTicksDesc ticks)
  else none

/-- `save_intraday_data` (lines 108-150): refuse `None` or empty data,
otherwise write the tick file and the metadata entry stamped with `now`. -/
def saveIntradayData (now : DT) (st : IntradayState) (tradeDate : Int)
    (data : Option (List Tick)) : Bool × IntradayState :=
  match data with
  | none => (false, st)
  | some ticks =>
    if ticks.isEmpty then (false, st)
    else
      (true, ⟨insertAssoc tradeDate ticks st.files,
              insertAssoc tradeDate ⟨now.day, now.hour, ticks.length⟩ st.metadata⟩)

end IntradayCacheManager

namespace MairuiDataProvider

open IntradayCacheManager

/-- The trading-day resolution repeated on lines 60-65 and 85-92 of
`mairui_provider.py`: before 21:00 the provider serves yesterday's data,
afterwards today's. -/
def resolveTradingDay (now : DT) : Int :=
  if now.hour < dataUpdateHour then now.day - 1 else now.day

/-- `get_intraday_trades` (lines 45-184 of `mairui_provider.py`).
`licence` is whether the API licence is configured; `fetchResult` is what one
API round-trip would yield: `none` for a request/JSON failure, `some []` for
an empty payload, `some raw` for data (always for the provider's current
trading day). Returns the frame given to the caller and the state afterwards. -/
def getIntradayTrades (expireDays : Int) (licence : Bool) (now : DT)
    (st : IntradayState) (tradeDateOpt : Option Int)
    (fetchResult : Option (List Tick)) : Option (List Tick) × IntradayState :=
  let tradeDate := tradeDateOpt.getD (resolveTradingDay now)
  match getIntradayData expireDays now st tradeDate with
  | some cached => (some cached, st)
  | none =>
    if !licence then (none, st)
    else
      let apiTradeDate := resolveTradingDay now
      if tradeDate = apiTradeDate then
        match fetchResult with
        | none => (getIntradayData expireDays now st tradeDate, st)
        | some raw =>
          if raw.isEmpty then (getIntradayData expireDays now st tradeDate, st)
          else
            let df := sortTicksAsc raw
            (some df, (saveIntradayData now st tradeDate (some df)).2)
      else (getIntradayData expireDays now st tradeDate, st)

end MairuiDataProvider

namespace SmartCacheManager

/-- The last bar carrying a given date in a list, scanning left to right;
this is the occurrence `index.duplicated(keep='last')` retains. -/
def lastBarWithDate : List Bar → Int → Option Bar
  | [], _ => none
  | b :: rest, D =>
    match lastBarWithDate rest D with
    | some c => some c
    | none => if b.date = D then some b else none

theorem lastBarWithDate_mem {l : List Bar} {D : Int} {c : Bar}
    (h : lastBarWithDate l D = some c) : c ∈ l ∧ c.date = D := by
  induction l with
  | nil => simp [lastBarWithDate] at h
  | cons b rest ih =>
    unfold lastBarWithDate at h
    cases hr : lastBarWithDate rest D with
    | some c' =>
      rw [hr] at h
      obtain rfl : c' = c := by injection h
      obtain ⟨h1, h2⟩ := ih hr
      exact ⟨List.mem_cons_of_mem b h1, h2⟩
    | none =>
      rw [hr] at h
      by_cases hbD : b.date = D
      · rw [if_pos hbD] at h
        obtain rfl : b = c := by injection h
        exact ⟨List.mem_cons_self b rest, hbD⟩
      · rw [if_neg hbD] at h
        cases h

theorem forall_ne_of_lastBarWithDate_eq_none {l : List Bar} {D : Int}
    (h : lastBarWithDate l D = none) : ∀ y ∈ l, y.date ≠ D := by
  induction l with
  | nil => simp
  | cons b rest ih =>
    unfold lastBarWithDate at h
    cases hr : lastBarWithDate rest D with
    | some c' => rw [hr] at h; cases h
    | none =>
      rw [hr] at h
      intro y hy
      rcases List.mem_cons.mp hy with rfl | hmem
      · intro hEq
        rw [if_pos hEq] at h
        cases h
      · exact ih hr y hmem

theorem lastBarWithDate_isSome {l : List Bar} {D : Int}
    (h : ∃ y ∈ l, y.date = D) : ∃ c, lastBarWithDate l D = some c := by
  cases ho : lastBarWithDate l D with
  | some c => exact ⟨c, rfl⟩
  | none =>
    obtain ⟨y, hy, hyD⟩ := h
    exact absurd hyD (forall_ne_of_lastBarWithDate_eq_none ho y hy)

theorem lastBarWithDate_append_right {l₂ : List Bar} {D : Int} {c : Bar}
    (l₁ : List Bar) (h : lastBarWithDate l₂ D = some c) :
    lastBarWithDate (l₁ ++ l₂) D = some c := by
  induction l₁ with
  | nil => exact h
  | cons b rest ih => simp [lastBarWithDate, ih]

theorem mem_dedupKeepLast_subset {l : List Bar} {y : Bar}
    (h : y ∈ dedupKeepLast l) : y ∈ l := by
  induction l with
  | nil => simp [dedupKeepLast] at h
  | cons b rest ih =>
    unfold dedupKeepLast at h
    by_cases ha : rest.any (fun c => decide (c.date = b.date))
    · rw [if_pos ha] at h
      exact List.mem_cons_of_mem b (ih h)
    · rw [if_neg ha] at h
      rcases List.mem_cons.mp h with rfl | hmem
      · exact List.mem_cons_self y rest
      · exact List.mem_cons_of_mem b (ih hmem)

theorem dedupKeepLast_pairwise_ne (l : List Bar) :
    (dedupKeepLast l).Pairwise (fun a b => a.date ≠ b.date) := by
  induction l with
  | nil => simp [dedupKeepLast]
  | cons b rest ih =>
    unfold dedupKeepLast
    by_cases ha : rest.any (fun c => decide (c.date = b.date))
    · rw [if_pos ha]
      exact ih
    · rw [if_neg ha]
      refine List.Pairwise.cons (fun y hy => ?_) ih
      have hy' : y ∈ rest := mem_dedupKeepLast_subset hy
      intro hEq
      exact ha (List.any_eq_true.mpr ⟨y, hy', by simp [hEq]⟩)

theorem filter_dedupKeepLast {l : List Bar} {D : Int} {c : Bar}
    (h : lastBarWithDate l D = some c) :
    (dedupKeepLast l).filter (fun x => decide (x.date = D)) = [c] := by
  induction l with
  | nil => simp [lastBarWithDate] at h
  | cons b rest ih =>
    unfold lastBarWithDate at h
    unfold dedupKeepLast
    cases hr : lastBarWithDate rest D with
    | some c' =>
      rw [hr] at h
      replace h : c' = c := by injection h
      subst h
      by_cases ha : rest.any (fun x => decide (x.date = b.date))
      · rw [if_pos ha]
        exact ih hr
      · rw [if_neg ha]
        have hbD : ¬ b.date = D := by
          intro hEq
          obtain ⟨hcm, hcd⟩ := lastBarWithDate_mem hr
          refine ha (List.any_eq_true.mpr ⟨_, hcm, ?_⟩)
          simp [hcd, hEq]
        have hrest := ih hr
        simp [List.filter_cons, hbD, hrest]
    | none =>
      rw [hr] at h
      by_cases hbD : b.date = D
      · rw [if_pos hbD] at h
        replace h : b = c := by injection h
        subst h
        have hall := forall_ne_of_lastBarWithDate_eq_none hr
        by_cases ha : rest.any (fun x => decide (x.date = b.date))
        · exfalso
          obtain ⟨y, hy, hyd⟩ := List.any_eq_true.mp ha
          exact hall y hy (by simpa [hbD] using hyd)
        · rw [if_neg ha]
          have hnil : (dedupKeepLast rest).filter (fun x => decide (x.date = D)) = [] :=
            List.filter_eq_nil_iff.mpr (fun y hy => by
              simpa using hall y (mem_dedupKeepLast_subset hy))
          simp [List.filter_cons, hbD, hnil]
      · rw [if_neg hbD] at h
        cases h

/-- C3: the merge step concatenates cached bars with fetched bars, keeps the
last occurrence per date (so a refetched value replaces the cached one), and
sorts ascending by date: the result is date-sorted, has at most one bar per
date, and for a date `D` refetched with value `v2` it holds exactly the bar
`(D, v2)`. -/
theorem merge_is_last_write_wins (existing newData : List Bar) (D v2 : Int)
    (hex : existing ≠ []) (hnew : newData ≠ [])
    (hall : ∀ b ∈ newData, b.date = D → b.val = v2)
    (hsome : ∃ b ∈ newData, b.date = D) :
    List.Sorted dateLe (mergeDataRanges (some existing) (some newData)) ∧
    List.Pairwise (fun a b => a.date ≠ b.date)
      (mergeDataRanges (some existing) (some newData)) ∧
    (mergeDataRanges (some existing) (some newData)).filter
      (fun c => decide (c.date = D)) = [⟨D, v2⟩] := by
  have hme : mergeDataRanges (some existing) (some newData) =
      sortBars (dedupKeepLast (existing ++ newData)) := by
    unfold mergeDataRanges
    simp [List.isEmpty_iff, hex, hnew]
  obtain ⟨c, hc⟩ := lastBarWithDate_isSome hsome
  obtain ⟨hcm, hcd⟩ := lastBarWithDate_mem hc
  have hcv : c = ⟨D, v2⟩ := by
    cases c
    simp only [Bar.mk.injEq]
    exact ⟨hcd, by simpa [hcd] using hall _ hcm hcd⟩
  subst hcv
  have hlast : lastBarWithDate (existing ++ newData) D = some ⟨D, v2⟩ :=
    lastBarWithDate_append_right existing hc
  rw [hme]
  refine ⟨List.sorted_insertionSort dateLe _, ?_, ?_⟩
  · exact ((List.perm_insertionSort dateLe _).pairwise_iff
      (fun h => Ne.symm h)).mpr (dedupKeepLast_pairwise_ne _)
  · have hperm := (List.perm_insertionSort dateLe
      (dedupKeepLast (existing ++ newData))).filter (fun c => decide (c.date = D))
    rw [filter_dedupKeepLast hlast] at hperm
    exact List.perm_singleton.mp hperm

/-- Witness for C3: caching date 1 with value 5 then refetching it with value
7 leaves exactly the bar `(1, 7)`. -/
theorem merge_is_last_write_wins_witness :
    List.Sorted dateLe (mergeDataRanges (some [⟨1, 5⟩]) (some [⟨1, 7⟩])) ∧
    List.Pairwise (fun a b => a.date ≠ b.date)
      (mergeDataRanges (some [⟨1, 5⟩]) (some [⟨1, 7⟩])) ∧
    (mergeDataRanges (some [⟨1, 5⟩]) (some [⟨1, 7⟩])).filter
      (fun c => decide (c.date = 1)) = [⟨1, 7⟩] :=
  merge_is_last_write_wins [⟨1, 5⟩] [⟨1, 7⟩] 1 7 (by decide) (by decide)
    (by intro b hb hd; simp at hb; simp [hb])
    ⟨⟨1, 7⟩, by simp, rfl⟩

end SmartCacheManager

namespace SmartCacheManager

theorem covered_request_run (now : Int) (s : CacheState) (startD endD : Int)
    (fetcher : Int → Int → Option (List Bar)) (bars : List Bar)
    (hc : getCachedData now s = some bars) (hne : bars ≠ [])
    (h1 : minDate bars ≤ startD) (h2 : endD ≤ maxDate bars) :
    getDataWithCache now s startD endD fetcher =
      ⟨.ok (sliceLoc bars startD endD), s, []⟩ := by
  have hcov : coveredCheck now s startD endD = true := by
    unfold coveredCheck
    rw [hc]
    simp [List.isEmpty_iff, hne, h1, h2]
  unfold getDataWithCache
  rw [hc, hcov]
  simp

/-- C1: when the cached series is present (valid, hence non-expired),
non-empty, and its range covers `[startD, endD]`, `get_data_with_cache`
returns exactly the cached slice, invokes the fetch function on nothing, and
leaves the persisted series and metadata untouched. -/
theorem full_coverage_serves_cache (now : Int) (s : CacheState) (startD endD : Int)
    (fetcher : Int → Int → Option (List Bar)) (bars : List Bar)
    (hc : getCachedData now s = some bars) (hne : bars ≠ [])
    (h1 : minDate bars ≤ startD) (h2 : endD ≤ maxDate bars) :
    getDataWithCache now s startD endD fetcher =
      ⟨.ok (sliceLoc bars startD endD), s, []⟩ :=
  covered_request_run now s startD endD fetcher bars hc hne h1 h2

/-- Witness for C1: a cache holding dates 1-10 fully covers the request 5-8
and is served without fetching or writing. -/
theorem full_coverage_serves_cache_witness :
    getCachedData 0 ⟨some [⟨1, 3⟩, ⟨5, 4⟩, ⟨8, 6⟩, ⟨10, 7⟩], some ⟨0, 1, 10, 4⟩⟩ =
      some [⟨1, 3⟩, ⟨5, 4⟩, ⟨8, 6⟩, ⟨10, 7⟩] ∧
    getDataWithCache 0 ⟨some [⟨1, 3⟩, ⟨5, 4⟩, ⟨8, 6⟩, ⟨10, 7⟩], some ⟨0, 1, 10, 4⟩⟩ 5 8
        (fun _ _ => some [⟨5, 99⟩]) =
      ⟨.ok [⟨5, 4⟩, ⟨8, 6⟩], ⟨some [⟨1, 3⟩, ⟨5, 4⟩, ⟨8, 6⟩, ⟨10, 7⟩], some ⟨0, 1, 10, 4⟩⟩, []⟩ := by
  refine ⟨rfl, ?_⟩
  have h := full_coverage_serves_cache 0
    ⟨some [⟨1, 3⟩, ⟨5, 4⟩, ⟨8, 6⟩, ⟨10, 7⟩], some ⟨0, 1, 10, 4⟩⟩ 5 8
    (fun _ _ => some [⟨5, 99⟩]) [⟨1, 3⟩, ⟨5, 4⟩, ⟨8, 6⟩, ⟨10, 7⟩]
    rfl (by decide) (by decide) (by decide)
  exact h.trans (by rfl)

theorem fetchCalls_eq_missing (now : Int) (s : CacheState) (startD endD : Int)
    (fetcher : Int → Int → Option (List Bar))
    (h : coveredCheck now s startD endD = false) :
    (getDataWithCache now s startD endD fetcher).fetchCalls =
      getMissingDateRanges now s startD endD := by
  unfold getDataWithCache
  rw [h]
  simp only [Bool.false_eq_true, if_false]
  split
  · split <;> first | rfl | (split <;> rfl)
  · split
    · split <;> first | rfl | (split <;> rfl)
    · rfl

/-- C2: on a request the cache does not fully cover, the fetch function is
invoked exactly once per computed gap and on nothing else: the left gap
`[startD, cache.min - 1]` exactly when `startD < cache.min`, the right gap
`[cache.max + 1, endD]` exactly when `endD > cache.max`, and the single gap
`[startD, endD]` when no cached data exists at all. -/
theorem gap_computation_and_fetch_calls (now : Int) (s : CacheState)
    (startD endD : Int) (fetcher : Int → Int → Option (List Bar))
    (h : coveredCheck now s startD endD = false) :
    (getDataWithCache now s startD endD fetcher).fetchCalls =
      match getCachedData now s with
      | none => [(startD, endD)]
      | some bars =>
        if bars.isEmpty then [(startD, endD)]
        else
          (if startD < minDate bars then [(startD, minDate bars - 1)] else []) ++
          (if endD > maxDate bars then [(maxDate bars + 1, endD)] else []) := by
  rw [fetchCalls_eq_missing now s startD endD fetcher h]
  rfl

/-- Witness for C2: a cache holding dates 5-9 queried for 1-20 yields fetch
calls for exactly the two gaps 1-4 and 10-20 (spec Scenario C shape). -/
theorem gap_computation_and_fetch_calls_witness :
    coveredCheck 0 ⟨some [⟨5, 1⟩, ⟨9, 2⟩], some ⟨0, 5, 9, 2⟩⟩ 1 20 = false ∧
    (getDataWithCache 0 ⟨some [⟨5, 1⟩, ⟨9, 2⟩], some ⟨0, 5, 9, 2⟩⟩ 1 20
        (fun _ _ => none)).fetchCalls = [(1, 4), (10, 20)] := by
  refine ⟨rfl, ?_⟩
  have h := gap_computation_and_fetch_calls 0
    ⟨some [⟨5, 1⟩, ⟨9, 2⟩], some ⟨0, 5, 9, 2⟩⟩ 1 20 (fun _ _ => none) rfl
  exact h.trans (by rfl)

/-- C4 (failing input): with nothing cached for the symbol and a fetcher that
fails (returns `None`) for the single missing range, the fallback branch on
line 211 of `data_manager.py` evaluates `cached_data.loc[...]` with
`cached_data = None` and raises `AttributeError` instead of returning the
empty available subset; no fetch result was usable and no write occurred. -/
theorem uncached_failed_fetch_crashes :
    (getDataWithCache 0 ⟨none, none⟩ 10 20 (fun _ _ => none)).result = .error () ∧
    (getDataWithCache 0 ⟨none, none⟩ 10 20 (fun _ _ => none)).newState = ⟨none, none⟩ ∧
    (getDataWithCache 0 ⟨none, none⟩ 10 20 (fun _ _ => none)).fetchCalls = [(10, 20)] :=
  ⟨rfl, rfl, rfl⟩

/-- C5 (counterexample): an inverted request (`endD < startD`, here 10 < 20)
with nothing cached is not rejected: the computed sub-range `(20, 10)` with
start after end is passed to the fetch function instead of being dropped, and
the call then raises rather than returning an empty result. -/
theorem inverted_range_fetched_counterexample :
    (10 : Int) < 20 ∧
    (getDataWithCache 0 ⟨none, none⟩ 20 10 (fun _ _ => none)).fetchCalls = [(20, 10)] ∧
    (getDataWithCache 0 ⟨none, none⟩ 20 10 (fun _ _ => none)).result = .error () :=
  ⟨by decide, rfl, rfl⟩

/-- C5 (amended): an inverted request is not specially rejected. When the
cached range happens to cover both endpoints, the call returns an empty
result with no fetch call and no write; when nothing is cached, the inverted
sub-range `(startD, endD)` itself is handed to the fetch function rather than
dropped. -/
theorem inverted_request_behavior (now : Int) (s : CacheState) (startD endD : Int)
    (fetcher : Int → Int → Option (List Bar)) (bars : List Bar)
    (hend : endD < startD) :
    (getCachedData now s = some bars → bars ≠ [] → minDate bars ≤ startD →
      endD ≤ maxDate bars →
      getDataWithCache now s startD endD fetcher = ⟨.ok [], s, []⟩) ∧
    (getCachedData now s = none →
      (getDataWithCache now s startD endD fetcher).fetchCalls = [(startD, endD)]) := by
  constructor
  · intro hc hne h1 h2
    have h := covered_request_run now s startD endD fetcher bars hc hne h1 h2
    rw [h]
    have hnil : sliceLoc bars startD endD = [] := by
      refine List.filter_eq_nil_iff.mpr (fun x _ => ?_)
      simp only [Bool.and_eq_true, decide_eq_true_eq, not_and]
      intro hxa hxb
      omega
    rw [hnil]
  · intro hc
    have hcov : coveredCheck now s startD endD = false := by
      unfold coveredCheck
      rw [hc]
    rw [fetchCalls_eq_missing now s startD endD fetcher hcov]
    unfold getMissingDateRanges
    rw [hc]

/-- Witness for C5 (amended): a covered inverted request 7-6 against a cache
holding 5 and 9 returns empty with no fetch and no write; an uncached
inverted request 7-6 produces the single inverted fetch call `(7, 6)`. -/
theorem inverted_request_behavior_witness :
    getDataWithCache 0 ⟨some [⟨5, 1⟩, ⟨9, 2⟩], some ⟨0, 5, 9, 2⟩⟩ 7 6
        (fun _ _ => none) =
      ⟨.ok [], ⟨some [⟨5, 1⟩, ⟨9, 2⟩], some ⟨0, 5, 9, 2⟩⟩, []⟩ ∧
    (getDataWithCache 0 ⟨none, none⟩ 7 6 (fun _ _ => none)).fetchCalls = [(7, 6)] := by
  constructor
  · exact (inverted_request_behavior 0 ⟨some [⟨5, 1⟩, ⟨9, 2⟩], some ⟨0, 5, 9, 2⟩⟩ 7 6
      (fun _ _ => none) [⟨5, 1⟩, ⟨9, 2⟩] (by decide)).1 rfl (by decide) (by decide) (by decide)
  · exact (inverted_request_behavior 0 ⟨none, none⟩ 7 6
      (fun _ _ => none) [] (by decide)).2 rfl

end SmartCacheManager

namespace SmartCacheManager

/-- C6 (counterexample): a cache holding only date 5 is queried for 6-8; the
fetcher answers the sub-range `(6, 8)` with a bar dated 100, outside both the
requested sub-range and the cached range, yet that bar is persisted to the
series file: nothing is clipped before the merge. -/
theorem out_of_range_bar_persisted_counterexample :
    (getDataWithCache 0 ⟨some [⟨5, 1⟩], some ⟨0, 5, 5, 1⟩⟩ 6 8
        (fun _ _ => some [⟨100, 9⟩])).fetchCalls = [(6, 8)] ∧
    (getDataWithCache 0 ⟨some [⟨5, 1⟩], some ⟨0, 5, 5, 1⟩⟩ 6 8
        (fun _ _ => some [⟨100, 9⟩])).newState.seriesFile = some [⟨5, 1⟩, ⟨100, 9⟩] ∧
    ¬ ((6 : Int) ≤ 100 ∧ (100 : Int) ≤ 8) ∧ ¬ ((5 : Int) ≤ 100 ∧ (100 : Int) ≤ 5) :=
  ⟨rfl, rfl, by decide, by decide⟩

/-- C6 (amended): fetch results are merged without any clipping: whatever
bars the fetcher returns for the missing sub-ranges are concatenated whole
into the merge, so any returned bar that is the last occurrence of its date
among the fetched data ends up in the persisted series file, regardless of
whether its date lies inside the requested sub-ranges. -/
theorem fetch_results_merged_unclipped (now : Int) (s : CacheState)
    (startD endD : Int) (fetcher : Int → Int → Option (List Bar)) (b : Bar)
    (hcov : coveredCheck now s startD endD = false)
    (hb : lastBarWithDate
      (collectNewData fetcher (getMissingDateRanges now s startD endD)).flatten
      b.date = some b) :
    ∃ persisted,
      (getDataWithCache now s startD endD fetcher).newState.seriesFile =
        some persisted ∧ b ∈ persisted := by
  have hflat_ne :
      (collectNewData fetcher (getMissingDateRanges now s startD endD)).flatten ≠ [] := by
    intro h0
    rw [h0] at hb
    simp [lastBarWithDate] at hb
  have hparts_ne :
      (collectNewData fetcher (getMissingDateRanges now s startD endD)).isEmpty = false := by
    cases hp : (collectNewData fetcher (getMissingDateRanges now s startD endD)).isEmpty
    · rfl
    · exact absurd (by rw [List.isEmpty_iff.mp hp]; rfl) hflat_ne
  have hmiss_ne : (getMissingDateRanges now s startD endD).isEmpty = false := by
    cases hm : (getMissingDateRanges now s startD endD).isEmpty
    · rfl
    · rw [List.isEmpty_iff.mp hm] at hparts_ne
      simp [collectNewData] at hparts_ne
  have hrun : getDataWithCache now s startD endD fetcher =
      ⟨.ok (sliceLoc (mergeDataRanges (getCachedData now s)
          (some (collectNewData fetcher
            (getMissingDateRanges now s startD endD)).flatten)) startD endD),
       saveDataToCache now (mergeDataRanges (getCachedData now s)
          (some (collectNewData fetcher
            (getMissingDateRanges now s startD endD)).flatten)),
       getMissingDateRanges now s startD endD⟩ := by
    unfold getDataWithCache
    rw [hcov]
    simp [hmiss_ne, hparts_ne]
  rw [hrun]
  refine ⟨_, rfl, ?_⟩
  cases hgc : getCachedData now s with
  | none =>
    simp only [mergeDataRanges, Option.getD_some]
    exact (lastBarWithDate_mem hb).1
  | some e =>
    by_cases he : e.isEmpty
    · simp only [mergeDataRanges, he, if_true, Option.getD_some]
      exact (lastBarWithDate_mem hb).1
    · have hfl : (collectNewData fetcher
          (getMissingDateRanges now s startD endD)).flatten.isEmpty = false := by
        cases hq : (collectNewData fetcher
            (getMissingDateRanges now s startD endD)).flatten.isEmpty
        · rfl
        · exact absurd (List.isEmpty_iff.mp hq) hflat_ne
      simp only [mergeDataRanges, he, hfl, Bool.false_eq_true, if_false]
      have hlast := lastBarWithDate_append_right e hb
      have hfd := filter_dedupKeepLast hlast
      have hmem : b ∈ dedupKeepLast (e ++ (collectNewData fetcher
          (getMissingDateRanges now s startD endD)).flatten) := by
        refine List.mem_of_mem_filter (p := fun x => decide (x.date = b.date)) ?_
        rw [hfd]
        exact List.mem_singleton.mpr rfl
      unfold sortBars
      exact (List.mem_insertionSort dateLe).mpr hmem

/-- Witness for C6 (amended): the concrete run of the counterexample seen
through the general statement: the out-of-range bar dated 100 is found in the
persisted series. -/
theorem fetch_results_merged_unclipped_witness :
    ∃ persisted,
      (getDataWithCache 0 ⟨some [⟨5, 1⟩], some ⟨0, 5, 5, 1⟩⟩ 6 8
          (fun _ _ => some [⟨100, 9⟩])).newState.seriesFile = some persisted ∧
      (⟨100, 9⟩ : Bar) ∈ persisted :=
  fetch_results_merged_unclipped 0 ⟨some [⟨5, 1⟩], some ⟨0, 5, 5, 1⟩⟩ 6 8
    (fun _ _ => some [⟨100, 9⟩]) ⟨100, 9⟩ rfl rfl

end SmartCacheManager

namespace IntradayCacheManager

/-- C10: `save_intraday_data` called with `None` or an empty tick series
returns `False` and leaves the persisted tick files and the cache metadata
untouched; only the non-empty branch ever writes. -/
theorem save_refuses_empty_data (now : DT) (st : IntradayState) (d : Int)
    (data : Option (List Tick)) (h : data = none ∨ data = some []) :
    saveIntradayData now st d data = (false, st) := by
  rcases h with rfl | rfl
  · rfl
  · rfl

/-- Witness for C10: saving `None` and saving an empty series against a
populated state both return `False` and change nothing. -/
theorem save_refuses_empty_data_witness :
    saveIntradayData ⟨100, 10⟩ ⟨[(99, [⟨1, 1⟩])], [(99, ⟨99, 22, 1⟩)]⟩ 99 none =
      (false, ⟨[(99, [⟨1, 1⟩])], [(99, ⟨99, 22, 1⟩)]⟩) ∧
    saveIntradayData ⟨100, 10⟩ ⟨[(99, [⟨1, 1⟩])], [(99, ⟨99, 22, 1⟩)]⟩ 99 (some []) =
      (false, ⟨[(99, [⟨1, 1⟩])], [(99, ⟨99, 22, 1⟩)]⟩) :=
  ⟨save_refuses_empty_data ⟨100, 10⟩ ⟨[(99, [⟨1, 1⟩])], [(99, ⟨99, 22, 1⟩)]⟩ 99 none
      (Or.inl rfl),
   save_refuses_empty_data ⟨100, 10⟩ ⟨[(99, [⟨1, 1⟩])], [(99, ⟨99, 22, 1⟩)]⟩ 99 (some [])
      (Or.inr rfl)⟩

/-- C9 (counterexample): a finalized day cached with ticks at timestamps 1
then 2 is returned by `get_intraday_data` as `[ts 2, ts 1]` — sorted
descending by `sort_index(ascending=False)` on line 181 of
`intraday_cache.py` — which is not ascending by timestamp. -/
theorem intraday_returned_not_ascending_counterexample :
    getIntradayData (-1) ⟨100, 10⟩ ⟨[(99, [⟨1, 1⟩, ⟨2, 2⟩])], [(99, ⟨99, 22, 2⟩)]⟩ 99 =
      some [⟨2, 2⟩, ⟨1, 1⟩] ∧
    ¬ List.Sorted tickAsc [⟨2, 2⟩, ⟨1, 1⟩] := by
  refine ⟨rfl, ?_⟩
  intro h
  have := List.rel_of_sorted_cons h ⟨1, 1⟩ (by simp)
  simp [tickAsc] at this

/-- C9 (amended): every tick series handed back by `get_intraday_data` is
ordered descending (newest first) by timestamp. -/
theorem intraday_cache_returns_descending (expireDays : Int) (now : DT)
    (st : IntradayState) (tradeDate : Int) (l : List Tick)
    (h : getIntradayData expireDays now st tradeDate = some l) :
    List.Sorted tickDesc l := by
  unfold getIntradayData at h
  by_cases hv : isCacheValid expireDays now st tradeDate
  · rw [if_pos hv] at h
    cases hf : lookupAssoc tradeDate st.files with
    | none => rw [hf] at h; cases h
    | some ticks =>
      rw [hf] at h
      replace h : sortTicksDesc ticks = l := by injection h
      rw [← h]
      exact List.sorted_insertionSort tickDesc ticks
  · rw [if_neg hv] at h
    cases h

/-- Witness for C9 (amended): the returned series of the concrete state above
is descending. -/
theorem intraday_cache_returns_descending_witness :
    getIntradayData (-1) ⟨100, 10⟩ ⟨[(99, [⟨1, 1⟩, ⟨2, 2⟩])], [(99, ⟨99, 22, 2⟩)]⟩ 99 =
      some [⟨2, 2⟩, ⟨1, 1⟩] ∧
    List.Sorted tickDesc [⟨2, 2⟩, ⟨1, 1⟩] :=
  ⟨rfl, intraday_cache_returns_descending (-1) ⟨100, 10⟩
    ⟨[(99, [⟨1, 1⟩, ⟨2, 2⟩])], [(99, ⟨99, 22, 2⟩)]⟩ 99 [⟨2, 2⟩, ⟨1, 1⟩] (by rfl)⟩

end IntradayCacheManager

namespace MairuiDataProvider

open IntradayCacheManager

/-- C7: when the cache for the requested day is invalid, `get_intraday_trades`
persists and returns freshly fetched data only if the requested day equals
the provider's resolved trading day — `today - 1` before hour 21, `today`
afterwards; for any other requested day nothing is persisted and the call
falls back to the (invalid, hence empty) cache, returning `None`. -/
theorem trades_persist_only_for_resolved_day (expireDays : Int) (now : DT)
    (st : IntradayState) (day : Int) (fetchRes : Option (List Tick))
    (hInvalid : isCacheValid expireDays now st day = false) :
    resolveTradingDay now = (if now.hour < 21 then now.day - 1 else now.day) ∧
    (day ≠ resolveTradingDay now →
      getIntradayTrades expireDays true now st (some day) fetchRes = (none, st)) ∧
    (∀ raw, day = resolveTradingDay now → fetchRes = some raw → raw ≠ [] →
      getIntradayTrades expireDays true now st (some day) fetchRes =
        (some (sortTicksAsc raw),
         (saveIntradayData now st day (some (sortTicksAsc raw))).2)) := by
  have hget : getIntradayData expireDays now st day = none := by
    unfold getIntradayData
    rw [hInvalid]
    simp
  refine ⟨rfl, ?_, ?_⟩
  · intro hne
    unfold getIntradayTrades
    simp only [Option.getD_some]
    rw [hget]
    simp [hne, hget]
  · intro raw hEq hf hraw
    subst hf
    unfold getIntradayTrades
    simp only [Option.getD_some]
    rw [hget]
    simp [← hEq, List.isEmpty_iff, hraw]

/-- Witness for C7: with an empty cache at 22:00 on day 100 (resolved trading
day 100), a request for day 99 returns `None` and persists nothing, while a
request for day 100 persists and returns the fetched ticks sorted ascending. -/
theorem trades_persist_only_for_resolved_day_witness :
    getIntradayTrades (-1) true ⟨100, 22⟩ ⟨[], []⟩ (some 99) (some [⟨1, 4⟩]) =
      (none, ⟨[], []⟩) ∧
    getIntradayTrades (-1) true ⟨100, 22⟩ ⟨[], []⟩ (some 100) (some [⟨2, 5⟩, ⟨1, 4⟩]) =
      (some [⟨1, 4⟩, ⟨2, 5⟩], ⟨[(100, [⟨1, 4⟩, ⟨2, 5⟩])], [(100, ⟨100, 22, 2⟩)]⟩) := by
  constructor
  · exact (trades_persist_only_for_resolved_day (-1) ⟨100, 22⟩ ⟨[], []⟩ 99
      (some [⟨1, 4⟩]) rfl).2.1 (by decide)
  · exact ((trades_persist_only_for_resolved_day (-1) ⟨100, 22⟩ ⟨[], []⟩ 100
      (some [⟨2, 5⟩, ⟨1, 4⟩]) rfl).2.2 [⟨2, 5⟩, ⟨1, 4⟩] (by decide) rfl
      (by decide)).trans (by rfl)

end MairuiDataProvider

namespace MairuiDataProvider

open IntradayCacheManager

/-- C8: a FINAL day-cache entry — a persisted entry (metadata plus tick file)
for a day strictly before the currently resolved trading day, or for the
resolved trading day itself with a `last_update` stamp at or after that day's
21:00 cutover — is never overwritten or mutated by a later
`get_intraday_trades` call for that day, whatever the adapter would return.
The hour fields carry the real-clock bounds `0 ≤ hour < 24`, and the entry's
stamp does not lie in the future of `now`. -/
theorem final_entries_never_overwritten (expireDays : Int) (licence : Bool)
    (now : DT) (st : IntradayState) (day : Int) (m : DayMeta)
    (ticks : List Tick) (fetchRes : Option (List Tick))
    (hm : lookupAssoc day st.metadata = some m)
    (hf : lookupAssoc day st.files = some ticks)
    (hnh0 : 0 ≤ now.hour) (hnh1 : now.hour < 24)
    (hlh0 : 0 ≤ m.lastUpdateHour) (hlh1 : m.lastUpdateHour < 24)
    (hlu_past : m.lastUpdateDay < now.day ∨
      (m.lastUpdateDay = now.day ∧ m.lastUpdateHour ≤ now.hour))
    (hfinal : day < resolveTradingDay now ∨
      (day = resolveTradingDay now ∧
        (day < m.lastUpdateDay ∨ (m.lastUpdateDay = day ∧ 21 ≤ m.lastUpdateHour)))) :
    (getIntradayTrades expireDays licence now st (some day) fetchRes).2 = st := by
  rcases hfinal with hlt | ⟨hEq, hcut⟩
  · have hne : day ≠ resolveTradingDay now := ne_of_lt hlt
    by_cases hv : isCacheValid expireDays now st day
    · have hget : getIntradayData expireDays now st day = some (sortTicksDesc ticks) := by
        unfold getIntradayData
        rw [if_pos hv, hf]
      unfold getIntradayTrades
      simp only [Option.getD_some]
      rw [hget]
    · have hget : getIntradayData expireDays now st day = none := by
        unfold getIntradayData
        rw [if_neg hv]
      unfold getIntradayTrades
      simp only [Option.getD_some]
      rw [hget]
      by_cases hl : licence
      · simp [hl, hne, hget]
      · simp [hl]
  · have hv : isCacheValid expireDays now st day = true := by
      unfold isCacheValid
      simp only [hm, hf]
      by_cases hh : now.hour < 21
      · have hday : day = now.day - 1 := by
          rw [hEq]
          unfold resolveTradingDay dataUpdateHour
          rw [if_pos hh]
        have hne : ¬ day = now.day := by omega
        rw [if_neg hne]
        by_cases hexp : expireDays ≥ 0
        · rw [if_pos hexp]
          have hd0 : 0 ≤ (now.day * 24 + now.hour) -
              (m.lastUpdateDay * 24 + m.lastUpdateHour) := by
            rcases hcut with h1 | ⟨h2, h3⟩ <;> rcases hlu_past with h4 | ⟨h5, h6⟩ <;> omega
          have hd1 : (now.day * 24 + now.hour) -
              (m.lastUpdateDay * 24 + m.lastUpdateHour) < 24 := by
            rcases hcut with h1 | ⟨h2, h3⟩ <;> rcases hlu_past with h4 | ⟨h5, h6⟩ <;> omega
          have hfd : timeDeltaDays now ⟨m.lastUpdateDay, m.lastUpdateHour⟩ = 0 := by
            unfold timeDeltaDays
            rw [Int.fdiv_eq_tdiv hd0 (by norm_num)]
            exact Int.tdiv_eq_zero_of_lt hd0 hd1
          rw [hfd]
          simpa using hexp
        · rw [if_neg hexp]
      · have hday : day = now.day := by
          rw [hEq]
          unfold resolveTradingDay dataUpdateHour
          rw [if_neg hh]
        rw [if_pos hday]
        have hupd : isDataUpdatedToday now day = true := by
          unfold isDataUpdatedToday dataUpdateHour
          rw [if_pos hday]
          simp
          omega
        rw [hupd]
        simp only [Bool.not_true, Bool.false_eq_true, if_false]
        rcases hcut with h1 | ⟨h2, h3⟩
        · exfalso
          rcases hlu_past with h4 | ⟨h5, _⟩ <;> omega
        · unfold dataUpdateHour
          simpa using h3
    have hget : getIntradayData expireDays now st day = some (sortTicksDesc ticks) := by
      unfold getIntradayData
      rw [hv]
      simp only [if_true]
      rw [hf]
    unfold getIntradayTrades
    simp only [Option.getD_some]
    rw [hget]

/-- Witness for C8: at 10:00 on day 101 the resolved trading day is 100; the
entry for day 100 stamped at 22:00 on day 100 (past cutover, FINAL) survives
a further call unchanged even though the adapter offers fresh data, and so
does a strictly-past FINAL entry for day 99 at 22:00 on day 100. -/
theorem final_entries_never_overwritten_witness :
    (getIntradayTrades 3 true ⟨101, 10⟩
      ⟨[(100, [⟨1, 1⟩])], [(100, ⟨100, 22, 1⟩)]⟩ (some 100) (some [⟨7, 7⟩])).2 =
      ⟨[(100, [⟨1, 1⟩])], [(100, ⟨100, 22, 1⟩)]⟩ ∧
    (getIntradayTrades (-1) true ⟨100, 22⟩
      ⟨[(99, [⟨1, 1⟩])], [(99, ⟨99, 21, 1⟩)]⟩ (some 99) (some [⟨7, 7⟩])).2 =
      ⟨[(99, [⟨1, 1⟩])], [(99, ⟨99, 21, 1⟩)]⟩ :=
  ⟨final_entries_never_overwritten 3 true ⟨101, 10⟩
      ⟨[(100, [⟨1, 1⟩])], [(100, ⟨100, 22, 1⟩)]⟩ 100 ⟨100, 22, 1⟩ [⟨1, 1⟩]
      (some [⟨7, 7⟩]) rfl rfl (by decide) (by decide) (by decide) (by decide)
      (Or.inl (by decide)) (Or.inr (by decide)),
   final_entries_never_overwritten (-1) true ⟨100, 22⟩
      ⟨[(99, [⟨1, 1⟩])], [(99, ⟨99, 21, 1⟩)]⟩ 99 ⟨99, 21, 1⟩ [⟨1, 1⟩]
      (some [⟨7, 7⟩]) rfl rfl (by decide) (by decide) (by decide) (by decide)
      (Or.inl (by decide)) (Or.inl (by decide))⟩

end MairuiDataProvider
